import Mathlib

/-
  Verification of the agent-definition scanner
  (src/opensymbolicai_cli/scanner.py).

  The scanner statically inspects Python source files, discovers classes
  extending `PlanExecute` or `Planner`, and extracts structured metadata.
  Below, the relevant fragment of the Python `ast` node language is embedded
  as an inductive type, and each scanner function is translated line by line
  into a computable Lean definition.  File reading, `ast.parse`, and the
  filesystem are represented by explicit inputs: a scan receives the parse
  result (`Option ParsedFile`, `none` for a syntax error or unreadable file)
  and the manifest filesystem as an association list.
-/

namespace OsaiCli

/-! ### Python string primitives used by the scanner -/

/-- Python whitespace characters (the common subset relevant here). -/
def pyWS (c : Char) : Bool :=
  (c = ' ') || (c = '\t') || (c = '\n') || (c = '\r')

/-- Python `str.rstrip()`. -/
def pyRstrip (s : String) : String :=
  ⟨(s.data.reverse.dropWhile pyWS).reverse⟩

/-- Python `str.lstrip()`. -/
def pyLstrip (s : String) : String :=
  ⟨s.data.dropWhile pyWS⟩

/-- Python `str.strip()`. -/
def pyStrip (s : String) : String :=
  pyLstrip (pyRstrip s)

/-- Is `pat` a prefix of `l` (character lists)? -/
def charsPrefixOf : List Char → List Char → Bool
  | [], _ => true
  | _ :: _, [] => false
  | a :: as, b :: bs => (a = b) && charsPrefixOf as bs

/-- Does `pat` occur as a contiguous run inside `l`? -/
def charsInfixOf (pat : List Char) : List Char → Bool
  | [] => charsPrefixOf pat []
  | c :: rest => charsPrefixOf pat (c :: rest) || charsInfixOf pat rest

/-- Python `pat in s` (substring containment). -/
def strContainsSub (s pat : String) : Bool :=
  charsInfixOf pat.data s.data

/-- Does `s` start with `pat`? -/
def strStartsWith (s pat : String) : Bool :=
  charsPrefixOf pat.data s.data

/-- Split a character list at every newline (the list is never empty). -/
def splitLinesChars : List Char → List (List Char)
  | [] => [[]]
  | c :: rest =>
    if c = '\n' then [] :: splitLinesChars rest
    else
      match splitLinesChars rest with
      | [] => [[c]]
      | l :: ls => (c :: l) :: ls

/-- Python `s.split("\n")`. -/
def splitLines (s : String) : List String :=
  (splitLinesChars s.data).map (fun cs => ⟨cs⟩)

/-- Python `s.split("\n")[0]`. -/
def pyFirstLine (s : String) : String :=
  (splitLines s).headD ""

/-! ### The embedded `ast` node language -/

/-- A Python literal as stored in `ast.Constant`. -/
inductive Const where
  | str (s : String)
  | bool (b : Bool)
  | int (n : Int)
  | noneV
deriving DecidableEq

/-- Python `str(value)` on a constant. -/
def constStr : Const → String
  | .str s => s
  | .bool b => if b then "True" else "False"
  | .int n => toString n
  | .noneV => "None"

/-- Python `bool(value)` (truthiness) on a constant. -/
def constTruthy : Const → Bool
  | .str s => s != ""
  | .bool b => b
  | .int n => n != 0
  | .noneV => false

/-- The fragment of the Python AST the scanner inspects.  Field order of each
constructor mirrors the `_fields` order of the corresponding `ast` node, and
`keywordA` models the `ast.keyword` node (`arg = none` for `**kwargs`). -/
inductive Ast where
  | module (body : List Ast)
  | classDef (cname : String) (bases : List Ast) (body : List Ast)
  | functionDef (fname : String) (body : List Ast) (decorators : List Ast)
      (lineno : Nat) (endLineno : Option Nat)
  | callE (func : Ast) (args : List Ast) (keywords : List Ast)
  | keywordA (arg : Option String) (value : Ast)
  | nameE (id : String)
  | attributeE (value : Ast) (attr : String)
  | constantE (c : Const)
  | exprStmt (value : Ast)
  | passStmt

/-- `ast.iter_child_nodes`: the child AST nodes, in `_fields` order. -/
def children : Ast → List Ast
  | .module body => body
  | .classDef _ bases body => bases ++ body
  | .functionDef _ body decs _ _ => body ++ decs
  | .callE f args kws => f :: (args ++ kws)
  | .keywordA _ v => [v]
  | .nameE _ => []
  | .attributeE v _ => [v]
  | .constantE _ => []
  | .exprStmt v => [v]
  | .passStmt => []

mutual
/-- Number of AST nodes in a tree (used as traversal fuel). -/
def astSize : Ast → Nat
  | .module body => 1 + astSizeList body
  | .classDef _ bases body => 1 + (astSizeList bases + astSizeList body)
  | .functionDef _ body decs _ _ => 1 + (astSizeList body + astSizeList decs)
  | .callE f args kws => 1 + (astSize f + (astSizeList args + astSizeList kws))
  | .keywordA _ v => 1 + astSize v
  | .nameE _ => 1
  | .attributeE v _ => 1 + astSize v
  | .constantE _ => 1
  | .exprStmt v => 1 + astSize v
  | .passStmt => 1

/-- Total node count of a list of trees. -/
def astSizeList : List Ast → Nat
  | [] => 0
  | a :: rest => astSize a + astSizeList rest
end

/-- `ast.walk`: breadth-first traversal with an explicit FIFO queue, exactly
as CPython implements it (`deque`; pop left, extend with children, yield).
The fuel argument makes the recursion structural; one unit is consumed per
dequeued node, so fuel `astSizeList queue` completes the traversal. -/
def walkFuel : Nat → List Ast → List Ast
  | 0, _ => []
  | _, [] => []
  | fuel + 1, n :: rest => n :: walkFuel fuel (rest ++ children n)

/-- `ast.walk(a)` with exactly enough fuel. -/
def astWalk (a : Ast) : List Ast :=
  walkFuel (astSize a) [a]

/-- Depth-first (document-order) node enumeration, fueled. -/
def docFuel : Nat → Ast → List Ast
  | 0, _ => []
  | fuel + 1, a => a :: (children a).flatMap (docFuel fuel)

/-- All nodes of a tree in document (pre-)order. -/
def docNodes (a : Ast) : List Ast :=
  docFuel (astSize a) a

/-! ### Scanner data model (`DiscoveredMethod`, `DiscoveredAgent`, `ManifestMetadata`) -/

/-- A source file path, as the scanner uses it: the containing directory
(`Path.parent`) and the file stem (`Path.stem`). -/
structure PyPath where
  dir : String
  stem : String
deriving DecidableEq

/-- `DiscoveredMethod` (scanner.py). -/
structure DiscoveredMethod where
  name : String
  method_type : String
  docstring : String := ""
  signature : String := ""
  source : String := ""
  line_number : Nat := 0
  read_only : Bool := false
  intent : String := ""
  expanded_intent : String := ""
deriving DecidableEq

/-- `DiscoveredAgent` (scanner.py). -/
structure DiscoveredAgent where
  name : String
  class_name : String
  file_path : PyPath
  description : String := ""
  version : String := ""
  base_class : String := "PlanExecute"
  methods : List DiscoveredMethod := []
deriving DecidableEq

/-- `ManifestMetadata` (scanner.py). -/
structure ManifestMetadata where
  name : String := ""
  description : String := ""
  version : String := ""
deriving DecidableEq

/-- Parsed content of a manifest file: the three optional string fields the
scanner reads via `data.get(..., "")`. -/
structure ManifestDoc where
  name : Option String := Option.none
  description : Option String := Option.none
  version : Option String := Option.none
deriving DecidableEq

/-- The manifest filesystem: full path → manifest content.  A missing key is
a missing file (`manifest_path.exists()` false); `some Option.none` is a file
whose read or JSON parse fails (`json.JSONDecodeError` / `OSError`). -/
abbrev ManifestFs : Type := List (String × Option ManifestDoc)

/-! ### Signature and source extraction (`_get_method_signature`, `_get_method_source`) -/

/-- The stop condition of the signature loop: `"):" in line or ") ->" in line`. -/
def sigStop (line : String) : Bool :=
  strContainsSub line "):" || strContainsSub line ") ->"

/-- The accumulation loop of `_get_method_signature`: starting at index
`idx`, collect at most `fuel` r-stripped lines, stopping after the first line
satisfying `sigStop`.  The loop in the Python source runs `i` over
`range(start_line, min(start_line + 10, len(source_lines)))` with a `break`;
running out of lines is the `lines[idx]? = none` case. -/
def sigCollect (lines : List String) : Nat → Nat → List String
  | _, 0 => []
  | idx, fuel + 1 =>
    match lines[idx]? with
    | Option.none => []
    | some line =>
      pyRstrip line :: (if sigStop line then [] else sigCollect lines (idx + 1) fuel)

/-- `_get_method_signature` (scanner.py, lines 49-62). -/
def getMethodSignature (lineno : Nat) (sourceLines : List String) : String :=
  pyStrip (String.intercalate "\n" (sigCollect sourceLines (lineno - 1) 10))

/-- `_get_method_source` (scanner.py, lines 65-69): the verbatim slice
`source_lines[start_line:end_line]`, where a falsy `end_lineno` falls back to
`start_line + 1`. -/
def getMethodSource (lineno : Nat) (endLineno : Option Nat) (sourceLines : List String) : String :=
  let startLine := lineno - 1
  let endLine := match endLineno with
    | some e => if e = 0 then startLine + 1 else e
    | Option.none => startLine + 1
  String.intercalate "\n" ((sourceLines.drop startLine).take (endLine - startLine))

/-! ### Manifest loading (`_load_manifest_metadata`, `_extract_manifest_filename`) -/

/-- `_load_manifest_metadata` (scanner.py, lines 72-100).  `manifestName` is
the Python `manifest_name: str | None` argument; `Option.none` selects the
default `f"{file_path.stem}.manifest.json"`. -/
def loadManifestMetadata (fs : ManifestFs) (filePath : PyPath)
    (manifestName : Option String) : ManifestMetadata :=
  let mname := match manifestName with
    | Option.none => filePath.stem ++ ".manifest.json"
    | some s => s
  let mpath := filePath.dir ++ "/" ++ mname
  match List.lookup mpath fs with
  | Option.none => {}
  | some Option.none => {}
  | some (some doc) =>
    { name := doc.name.getD ""
      description := doc.description.getD ""
      version := doc.version.getD "" }

/-- The test `keyword.arg == <name> and isinstance(keyword.value, ast.Constant)`
used by every keyword scan: the keyword's argument name and constant value,
when both are present. -/
def kwConst? : Ast → Option (String × Const)
  | .keywordA (some a) (.constantE c) => some (a, c)
  | _ => Option.none

/-- The keyword search of `_extract_manifest_filename`: the first keyword
argument named `manifest_name` carrying a constant. -/
def findManifestKw : List Ast → Option String
  | [] => Option.none
  | k :: rest =>
    match kwConst? k with
    | some (a, c) => if a = "manifest_name" then some (constStr c) else findManifestKw rest
    | Option.none => findManifestKw rest

/-- The test `isinstance(func, ast.Name) and func.id == "load_manifest"` on a
call node: its positional and keyword arguments when it is a `load_manifest`
call. -/
def loadManifestCall? : Ast → Option (List Ast × List Ast)
  | .callE (.nameE id) args kws =>
    if id = "load_manifest" then some (args, kws) else Option.none
  | _ => Option.none

/-- The body of `_extract_manifest_filename`'s `ast.walk` loop over a node
list.  The Python function returns `str | None`; here `Option.none` is the
Python `None` (default manifest naming) and `some ""` is the Python `""`
(no `load_manifest` call found). -/
def findLoadManifest : List Ast → Option String
  | [] => some ""
  | n :: rest =>
    match loadManifestCall? n with
    | some (args, kws) =>
      (match args with
       | _ :: .constantE c :: _ => some (constStr c)
       | _ =>
         match findManifestKw kws with
         | some s => some s
         | Option.none => Option.none)
    | Option.none => findLoadManifest rest

/-- `_extract_manifest_filename` (scanner.py, lines 103-135). -/
def extractManifestFilename (classNode : Ast) : Option String :=
  findLoadManifest (astWalk classNode)

/-! ### Method classification (`_extract_decorated_methods`) -/

/-- `ast.get_docstring`: the constant string expression statement heading a
body, if any.  (CPython additionally normalizes indentation via `cleandoc`;
no property below depends on the cleaning, only on presence and first line.) -/
def getDocstring : List Ast → Option String
  | .exprStmt (.constantE (.str s)) :: _ => some s
  | _ => Option.none

/-- The mutable locals of the decorator loop in `_extract_decorated_methods`:
`method_type`, `read_only`, `intent`, `expanded_intent`. -/
structure DecoState where
  methodType : Option String
  read_only : Bool
  intent : String
  expanded_intent : String
deriving DecidableEq

/-- Initial decorator-loop state (`None`, `False`, `""`, `""`). -/
def initDeco : DecoState :=
  ⟨Option.none, false, "", ""⟩

/-- The `read_only` keyword test of the `primitive` call branch:
`keyword.arg == "read_only" and isinstance(keyword.value, ast.Constant)`. -/
def roLitOf (k : Ast) : Option Const :=
  match kwConst? k with
  | some (a, c) => if a = "read_only" then some c else Option.none
  | Option.none => Option.none

/-- The `read_only` keyword scan inside the `primitive` call branch:
each keyword named `read_only` with a constant value overwrites the flag
with the constant's truthiness. -/
def readOnlyFold (ro : Bool) : List Ast → Bool
  | [] => ro
  | k :: rest =>
    readOnlyFold
      (match roLitOf k with
       | some c => constTruthy c
       | Option.none => ro)
      rest

/-- The keyword scan inside the `decomposition` call branch: keywords named
`intent` / `expanded_intent` with constant values overwrite the pair
(the `if/elif` makes the two cases exclusive per keyword). -/
def decompKeywordsFold (intent expanded : String) : List Ast → String × String
  | [] => (intent, expanded)
  | k :: rest =>
    match kwConst? k with
    | some (a, c) =>
      if a = "intent" then decompKeywordsFold (constStr c) expanded rest
      else if a = "expanded_intent" then decompKeywordsFold intent (constStr c) rest
      else decompKeywordsFold intent expanded rest
    | Option.none => decompKeywordsFold intent expanded rest

/-- One iteration of the decorator loop of `_extract_decorated_methods`
(scanner.py, lines 153-175).  Note the bare-marker branch exists only for
`primitive` (`isinstance(decorator, ast.Name) and decorator.id == "primitive"`);
a bare `decomposition` name falls through unrecognized. -/
def applyDecorator (st : DecoState) : Ast → DecoState
  | .nameE id =>
    if id = "primitive" then { st with methodType := some "primitive" } else st
  | .callE (.nameE id) args kws =>
    if id = "primitive" then
      { st with methodType := some "primitive"
                read_only := readOnlyFold st.read_only kws }
    else if id = "decomposition" then
      let intent0 := match args with
        | .constantE c :: _ => constStr c
        | _ => st.intent
      let p := decompKeywordsFold intent0 st.expanded_intent kws
      { st with methodType := some "decomposition"
                intent := p.1
                expanded_intent := p.2 }
    else st
  | _ => st

/-- The per-item classification of `_extract_decorated_methods`: run the
decorator loop on a `FunctionDef`; if a `method_type` was set, build the
`DiscoveredMethod`. -/
def classifyItem (sourceLines : List String) (item : Ast) : Option DiscoveredMethod :=
  match item with
  | .functionDef fname body decs lineno endLineno =>
    let st := decs.foldl applyDecorator initDeco
    (match st.methodType with
     | some mt =>
       some { name := fname
              method_type := mt
              docstring := (getDocstring body).getD ""
              signature := getMethodSignature lineno sourceLines
              source := getMethodSource lineno endLineno sourceLines
              line_number := lineno
              read_only := st.read_only
              intent := st.intent
              expanded_intent := st.expanded_intent }
     | Option.none => Option.none)
  | _ => Option.none

/-- `_extract_decorated_methods` (scanner.py, lines 138-193): iterate the
class body in order, appending each classified method. -/
def extractDecoratedMethods (classBody : List Ast) (sourceLines : List String) :
    List DiscoveredMethod :=
  classBody.filterMap (classifyItem sourceLines)

/-! ### Class resolution (`_extract_agent_info_from_ast`) -/

/-- The per-base test of the base-class loop: a `Name` whose id, or an
`Attribute` whose final attribute, is `PlanExecute` or `Planner`. -/
def matchBase : Ast → Option String
  | .nameE id =>
    if id = "PlanExecute" ∨ id = "Planner" then some id else Option.none
  | .attributeE _ attr =>
    if attr = "PlanExecute" ∨ attr = "Planner" then some attr else Option.none
  | _ => Option.none

/-- The base-class loop (scanner.py, lines 223-229): first base matching. -/
def findBaseClass (bases : List Ast) : Option String :=
  bases.findSome? matchBase

/-- One keyword of a `super().__init__(...)` call: keywords named `name`,
`description`, `version` with constant values overwrite the triple
(`if/elif` chain, scanner.py lines 247-255). -/
def applyInitKw (acc : String × String × String) (k : Ast) : String × String × String :=
  match kwConst? k with
  | some (a, c) =>
    if a = "name" then (constStr c, acc.2.1, acc.2.2)
    else if a = "description" then (acc.1, constStr c, acc.2.2)
    else if a = "version" then (acc.1, acc.2.1, constStr c)
    else acc
  | Option.none => acc

/-- One node of the `ast.walk(class_node)` loop scanning for calls whose
function is an attribute named `__init__` (scanner.py, lines 242-255). -/
def applyInitCall (acc : String × String × String) : Ast → String × String × String
  | .callE (.attributeE _ attr) _ kws =>
    if attr = "__init__" then kws.foldl applyInitKw acc else acc
  | _ => acc

/-- The inline (name, description, version) triple determined from
`super().__init__` keyword constants, seeded with the class name. -/
def inlineMeta (classNode : Ast) (cname : String) : String × String × String :=
  (astWalk classNode).foldl applyInitCall (cname, "", "")

/-- The manifest merge (scanner.py, lines 261-266): each non-empty (truthy)
manifest field overwrites the inline value. -/
def mergeManifest (meta : ManifestMetadata) (t : String × String × String) :
    String × String × String :=
  ((if meta.name ≠ "" then meta.name else t.1),
   (if meta.description ≠ "" then meta.description else t.2.1),
   (if meta.version ≠ "" then meta.version else t.2.2))

/-- The class-docstring fallback (scanner.py, lines 269-273): if the
description is still empty and the class has a truthy docstring, use the
first line of the docstring, stripped. -/
def docstringFallback (desc : String) (classBody : List Ast) : String :=
  if desc = "" then
    match getDocstring classBody with
    | some d => if d ≠ "" then pyStrip (pyFirstLine d) else desc
    | Option.none => desc
  else desc

/-- The per-node body of the `ast.walk(tree)` loop of
`_extract_agent_info_from_ast` (scanner.py, lines 217-288): classify one
class declaration, or skip the node. -/
def processClassNode (fs : ManifestFs) (filePath : PyPath) (sourceLines : List String) :
    Ast → Option DiscoveredAgent
  | .classDef cname bases body =>
    (match findBaseClass bases with
     | Option.none => Option.none
     | some baseClassName =>
       let node := Ast.classDef cname bases body
       let t0 := inlineMeta node cname
       let mf := extractManifestFilename node
       let t1 := if mf = some "" then t0
         else mergeManifest (loadManifestMetadata fs filePath mf) t0
       some { name := t1.1
              class_name := cname
              file_path := filePath
              description := docstringFallback t1.2.1 body
              version := t1.2.2
              base_class := baseClassName
              methods := extractDecoratedMethods body sourceLines })
  | _ => Option.none

/-- A successfully parsed source file: the retained line buffer
(`source.splitlines()`) and the syntax tree (`ast.parse(source)`). -/
structure ParsedFile where
  sourceLines : List String
  tree : Ast

/-- `_extract_agent_info_from_ast` (scanner.py, lines 196-290).  The
`try/except (SyntaxError, OSError)` around reading and parsing is the
`Option.none` case: an unreadable or syntactically invalid file yields no
agents.  On success the walk visits every node breadth-first, collecting the
classified classes in visit order. -/
def extractAgentInfoFromAst (fs : ManifestFs) (filePath : PyPath)
    (parsed : Option ParsedFile) : List DiscoveredAgent :=
  match parsed with
  | Option.none => []
  | some pf => (astWalk pf.tree).filterMap (processClassNode fs filePath pf.sourceLines)

/-- `scan_file_for_agents` (scanner.py, lines 318-330).  A path that fails
the `exists() and is_file()` check has no readable content and is passed as
`parsed = Option.none`, yielding `[]` exactly as the early return does. -/
def scanFileForAgents (fs : ManifestFs) (filePath : PyPath)
    (parsed : Option ParsedFile) : List DiscoveredAgent :=
  extractAgentInfoFromAst fs filePath parsed

/-- `scan_directory_for_agents` (scanner.py, lines 293-315): scan each
enumerated file and concatenate (`agents.extend`).  The `rglob("*.py")`
enumeration and the `__pycache__` skip produce the given file list; a
missing or non-directory root produces the empty list. -/
def scanDirectoryForAgents (fs : ManifestFs)
    (files : List (PyPath × Option ParsedFile)) : List DiscoveredAgent :=
  files.flatMap (fun f => extractAgentInfoFromAst fs f.1 f.2)

/-! ### Spec-side reference definitions

These definitions follow the wording of the specification (or of a claim),
not the source; the theorems below compare them with the embedded code. -/

/-- The claim's description of the signature stop condition: the line
contains the end-of-parameter-list marker followed by the body-opening
marker, i.e. the two-character text `):`. -/
def claimSigStop (line : String) : Bool :=
  strContainsSub line "):"

/-- The claim's accumulation loop: raw lines from the def line, stopping
after the first line satisfying `claimSigStop`, at most `fuel` lines, each
r-stripped. -/
def claimSigCollect (lines : List String) : Nat → Nat → List String
  | _, 0 => []
  | idx, fuel + 1 =>
    match lines[idx]? with
    | Option.none => []
    | some line =>
      pyRstrip line :: (if claimSigStop line then [] else claimSigCollect lines (idx + 1) fuel)

/-- The signature as claim C9 states it: the accumulated r-stripped lines
joined with line breaks (and nothing else — no overall strip). -/
def claimSignature (lineno : Nat) (sourceLines : List String) : String :=
  String.intercalate "\n" (claimSigCollect sourceLines (lineno - 1) 10)

/-- Take lines up to and including the first one satisfying `sigStop`. -/
def takeThroughStop : List String → List String
  | [] => []
  | l :: rest => if sigStop l then [l] else l :: takeThroughStop rest

/-- The amended description of the extracted signature: within the 10-line
window starting at the def line, the lines up to and including the first
one containing `):` or `) ->`, each r-stripped, joined with line breaks,
and the result stripped of surrounding whitespace. -/
def amendedSignatureSpec (lineno : Nat) (sourceLines : List String) : String :=
  pyStrip (String.intercalate "\n"
    ((takeThroughStop ((sourceLines.drop (lineno - 1)).take 10)).map pyRstrip))

/-- The name of a method the classifier keeps: a `FunctionDef` carrying at
least one recognized capability marker. -/
def taggedName : Ast → Option String
  | .functionDef fname _ decs _ _ =>
    (match (decs.foldl applyDecorator initDeco).methodType with
     | some _ => some fname
     | Option.none => Option.none)
  | _ => Option.none

/-- The spec-side reading of the read-only flag: the truthiness of the last
`read_only` keyword constant, `false` when there is none. -/
def lastReadOnlyLit (kws : List Ast) : Bool :=
  ((kws.reverse.findSome? roLitOf).map constTruthy).getD false

/-- The kind a recognized capability marker assigns: a bare `primitive`
name, or a call to `primitive` / `decomposition`. -/
def recognizedKind : Ast → Option String
  | .nameE id => if id = "primitive" then some "primitive" else Option.none
  | .callE (.nameE id) _ _ =>
    if id = "primitive" then some "primitive"
    else if id = "decomposition" then some "decomposition"
    else Option.none
  | _ => Option.none

/-- The keyword list a marker contributes to the read-only scan: the
keywords of a `primitive` call, nothing otherwise. -/
def primKws : Ast → List Ast
  | .callE (.nameE id) _ kws => if id = "primitive" then kws else []
  | _ => []

/-- Is the marker a `decomposition` call? -/
def isDecompCall : Ast → Bool
  | .callE (.nameE id) _ _ => id = "decomposition"
  | _ => false

/-- The (intent, expanded_intent) update a single `decomposition` call
performs: a first positional constant replaces the intent, then the
keyword scan runs.  Any other marker leaves the pair unchanged. -/
def decompStep (p : String × String) : Ast → String × String
  | .callE (.nameE id) args kws =>
    if id = "decomposition" then
      let intent0 := match args with
        | .constantE c :: _ => constStr c
        | _ => p.1
      decompKeywordsFold intent0 p.2 kws
    else p
  | _ => p

/-- The default manifest path of a source file:
`<dir>/<stem>.manifest.json`. -/
def defaultManifestPath (p : PyPath) : String :=
  p.dir ++ "/" ++ (p.stem ++ ".manifest.json")

/-! ### Size and traversal lemmas -/

theorem astSizeList_append (l₁ l₂ : List Ast) :
    astSizeList (l₁ ++ l₂) = astSizeList l₁ + astSizeList l₂ := by
  induction l₁ with
  | nil => simp [astSizeList]
  | cons a rest ih => simp [astSizeList, ih]; omega

theorem astSize_children (a : Ast) :
    astSize a = 1 + astSizeList (children a) := by
  cases a <;> simp only [astSize, children, astSizeList, astSizeList_append] <;> omega

theorem astSize_pos (a : Ast) : 1 ≤ astSize a := by
  rw [astSize_children]; omega

theorem astSize_le_of_mem {a : Ast} {l : List Ast} (h : a ∈ l) :
    astSize a ≤ astSizeList l := by
  induction l with
  | nil => cases h
  | cons b rest ih =>
    rcases List.mem_cons.mp h with rfl | h'
    · simp only [astSizeList]; omega
    · have := ih h'
      simp only [astSizeList]; omega

theorem flatMapCongr {α β : Type} (f g : α → List β) :
    ∀ l : List α, (∀ x ∈ l, f x = g x) → l.flatMap f = l.flatMap g := by
  intro l
  induction l with
  | nil => intro _; rfl
  | cons a rest ih =>
    intro h
    simp only [List.flatMap_cons]
    rw [h a (List.mem_cons_self a rest), ih (fun x hx => h x (List.mem_cons_of_mem a hx))]

theorem docFuel_eq_of_le :
    ∀ f g a, astSize a ≤ f → astSize a ≤ g → docFuel f a = docFuel g a := by
  intro f
  induction f with
  | zero => intro g a ha; have := astSize_pos a; omega
  | succ f ih =>
    intro g a ha hg
    have h1 := astSize_pos a
    cases g with
    | zero => omega
    | succ g =>
      simp only [docFuel]
      congr 1
      apply flatMapCongr
      intro c hc
      have hc1 : astSize c ≤ astSizeList (children a) := astSize_le_of_mem hc
      have hae := astSize_children a
      exact ih f c (by omega) (by omega) ▸ ih g c (by omega) (by omega) ▸ rfl

theorem docNodes_unfold (a : Ast) :
    docNodes a = a :: (children a).flatMap docNodes := by
  show docFuel (astSize a) a = _
  have h1 := astSize_pos a
  obtain ⟨f, hf⟩ : ∃ f, astSize a = f + 1 := ⟨astSize a - 1, by omega⟩
  rw [hf]
  simp only [docFuel]
  congr 1
  apply flatMapCongr
  intro c hc
  have hc1 : astSize c ≤ astSizeList (children a) := astSize_le_of_mem hc
  have hae := astSize_children a
  exact docFuel_eq_of_le f (astSize c) c (by omega) (le_refl _)

theorem walkFuel_perm :
    ∀ f q, astSizeList q ≤ f → List.Perm (walkFuel f q) (q.flatMap docNodes) := by
  intro f
  induction f with
  | zero =>
    intro q hq
    cases q with
    | nil => simp [walkFuel]
    | cons n rest =>
      have := astSize_pos n
      simp [astSizeList] at hq
      omega
  | succ f ih =>
    intro q hq
    cases q with
    | nil => simp [walkFuel]
    | cons n rest =>
      simp only [walkFuel]
      have hsz : astSizeList (rest ++ children n) ≤ f := by
        rw [astSizeList_append]
        have h1 := astSize_children n
        simp [astSizeList] at hq
        omega
      have hperm := ih (rest ++ children n) hsz
      rw [List.flatMap_append] at hperm
      rw [List.flatMap_cons, docNodes_unfold, List.cons_append]
      exact (hperm.trans List.perm_append_comm).cons n

/-! ### Signature-extraction lemmas -/

theorem drop_index_cons (lines : List String) :
    ∀ idx, lines.drop idx =
      (match lines[idx]? with
       | some a => a :: lines.drop (idx + 1)
       | Option.none => []) := by
  induction lines with
  | nil => intro idx; simp
  | cons a l ih =>
    intro idx
    cases idx with
    | zero => simp
    | succ n => simpa using ih n

theorem sigCollect_eq (lines : List String) :
    ∀ fuel idx, sigCollect lines idx fuel =
      (takeThroughStop ((lines.drop idx).take fuel)).map pyRstrip := by
  intro fuel
  induction fuel with
  | zero => intro idx; simp [sigCollect, takeThroughStop]
  | succ fuel ih =>
    intro idx
    rw [sigCollect, drop_index_cons lines idx]
    cases h : lines[idx]? with
    | none => simp [takeThroughStop]
    | some line =>
      simp only [List.take_cons, takeThroughStop]
      by_cases hs : sigStop line
      · simp [hs]
      · simp only [hs, if_false, List.map_cons, ih (idx + 1)]
        simp

theorem sigCollect_length_le (lines : List String) :
    ∀ fuel idx, (sigCollect lines idx fuel).length ≤ fuel := by
  intro fuel
  induction fuel with
  | zero => intro idx; simp [sigCollect]
  | succ fuel ih =>
    intro idx
    rw [sigCollect]
    cases lines[idx]? with
    | none => simp
    | some line =>
      by_cases hs : sigStop line
      · simp [hs]
      · simp only [hs, if_false, List.length_cons]
        exact Nat.succ_le_succ (ih (idx + 1))

/-! ### Decorator-loop lemmas -/

theorem readOnlyFold_append (a b : List Ast) (ro : Bool) :
    readOnlyFold ro (a ++ b) = readOnlyFold (readOnlyFold ro a) b := by
  induction a generalizing ro with
  | nil => rfl
  | cons k rest ih =>
    simp only [List.cons_append, readOnlyFold]
    exact ih _

theorem readOnlyFold_eq_last (kws : List Ast) :
    ∀ ro, readOnlyFold ro kws = ((kws.reverse.findSome? roLitOf).map constTruthy).getD ro := by
  induction kws with
  | nil => intro ro; rfl
  | cons k rest ih =>
    intro ro
    simp only [readOnlyFold, List.reverse_cons, List.findSome?_append, ih]
    cases hrev : rest.reverse.findSome? roLitOf with
    | some c => simp [Option.or]
    | none =>
      cases hk : roLitOf k with
      | some c => simp [Option.or, List.findSome?, hk]
      | none => simp [Option.or, List.findSome?, hk]

theorem applyDecorator_methodType (st : DecoState) (d : Ast) :
    (applyDecorator st d).methodType = (recognizedKind d).or st.methodType := by
  cases d
  case nameE id =>
    by_cases h : id = "primitive" <;> simp [applyDecorator, recognizedKind, h, Option.or]
  case callE f args kws =>
    cases f <;> try rfl
    case nameE id =>
      by_cases h1 : id = "primitive"
      · simp [applyDecorator, recognizedKind, h1, Option.or]
      · by_cases h2 : id = "decomposition" <;>
          simp [applyDecorator, recognizedKind, h1, h2, Option.or]
  all_goals rfl

theorem getLast?_cons_or {α : Type} (k : α) (l : List α) :
    (k :: l).getLast? = (l.getLast?).or (some k) := by
  rw [List.getLast?_eq_head?_reverse, List.getLast?_eq_head?_reverse,
    List.reverse_cons, List.head?_append]
  rfl

theorem foldl_applyDecorator_methodType (ds : List Ast) :
    ∀ st, (ds.foldl applyDecorator st).methodType =
      ((ds.filterMap recognizedKind).getLast?).or st.methodType := by
  induction ds with
  | nil => intro st; rfl
  | cons d rest ih =>
    intro st
    simp only [List.foldl_cons, ih, List.filterMap_cons]
    cases hk : recognizedKind d with
    | none =>
      rw [applyDecorator_methodType, hk]
      rfl
    | some k =>
      rw [applyDecorator_methodType, hk, getLast?_cons_or, Option.or_assoc]

theorem applyDecorator_read_only (st : DecoState) (d : Ast) :
    (applyDecorator st d).read_only = readOnlyFold st.read_only (primKws d) := by
  cases d
  case nameE id =>
    by_cases h : id = "primitive" <;> simp [applyDecorator, primKws, h, readOnlyFold]
  case callE f args kws =>
    cases f <;> try rfl
    case nameE id =>
      by_cases h1 : id = "primitive"
      · simp [applyDecorator, primKws, h1]
      · by_cases h2 : id = "decomposition" <;>
          simp [applyDecorator, primKws, h1, h2, readOnlyFold]
  all_goals rfl

theorem foldl_applyDecorator_read_only (ds : List Ast) :
    ∀ st, (ds.foldl applyDecorator st).read_only =
      readOnlyFold st.read_only (ds.flatMap primKws) := by
  induction ds with
  | nil => intro st; rfl
  | cons d rest ih =>
    intro st
    simp only [List.foldl_cons, ih, List.flatMap_cons, readOnlyFold_append,
      applyDecorator_read_only]

theorem applyDecorator_intents (st : DecoState) (d : Ast) :
    ((applyDecorator st d).intent, (applyDecorator st d).expanded_intent) =
      decompStep (st.intent, st.expanded_intent) d := by
  cases d
  case nameE id =>
    by_cases h : id = "primitive" <;> simp [applyDecorator, decompStep, h]
  case callE f args kws =>
    cases f <;> try rfl
    case nameE id =>
      by_cases h1 : id = "primitive"
      · simp [applyDecorator, decompStep, h1]
      · by_cases h2 : id = "decomposition" <;>
          simp [applyDecorator, decompStep, h1, h2]
  all_goals rfl

theorem foldl_applyDecorator_intents (ds : List Ast) :
    ∀ st, ((ds.foldl applyDecorator st).intent, (ds.foldl applyDecorator st).expanded_intent) =
      ds.foldl decompStep (st.intent, st.expanded_intent) := by
  induction ds with
  | nil => intro st; rfl
  | cons d rest ih =>
    intro st
    simp only [List.foldl_cons, ih, applyDecorator_intents]

theorem decompStep_skip (p : String × String) (d : Ast) (h : isDecompCall d = false) :
    decompStep p d = p := by
  cases d <;> try rfl
  case callE f args kws =>
    cases f <;> try rfl
    case nameE id =>
      simp only [isDecompCall, decide_eq_false_iff_not] at h
      simp [decompStep, h]

theorem foldl_decompStep_filter (ds : List Ast) :
    ∀ p, ds.foldl decompStep p = (ds.filter isDecompCall).foldl decompStep p := by
  induction ds with
  | nil => intro p; rfl
  | cons d rest ih =>
    intro p
    cases hd : isDecompCall d with
    | true => simp only [List.foldl_cons, List.filter_cons, hd, ite_true, ih]
    | false =>
      simp only [List.foldl_cons, List.filter_cons, hd, ite_false, ih,
        decompStep_skip p d hd]
      simp [Bool.false_eq_true]

theorem classifyItem_name (sourceLines : List String) (item : Ast) :
    (classifyItem sourceLines item).map (fun m => m.name) = taggedName item := by
  cases item <;> try rfl
  case functionDef fname body decs ln el =>
    simp only [classifyItem, taggedName]
    cases (decs.foldl applyDecorator initDeco).methodType <;> rfl

theorem classifyItem_eq (sourceLines : List String) (fname : String) (body ds : List Ast)
    (ln : Nat) (el : Option Nat) (mt : String)
    (hmt : (ds.foldl applyDecorator initDeco).methodType = some mt) :
    classifyItem sourceLines (Ast.functionDef fname body ds ln el) =
      some { name := fname
             method_type := mt
             docstring := (getDocstring body).getD ""
             signature := getMethodSignature ln sourceLines
             source := getMethodSource ln el sourceLines
             line_number := ln
             read_only := (ds.foldl applyDecorator initDeco).read_only
             intent := (ds.foldl applyDecorator initDeco).intent
             expanded_intent := (ds.foldl applyDecorator initDeco).expanded_intent } := by
  simp only [classifyItem, hmt]

/-! ### Concrete inputs used by single claims -/

/-- The source lines of a small agent file: a decorated method `f` whose
decorator sits on the line above its `def`. -/
def c7Lines : List String :=
  ["class A(PlanExecute):", "    @primitive", "    def f(self):", "        pass"]

/-- The class body matching `c7Lines`: `f` is at line 3, ends at line 4,
and carries the bare `primitive` marker from line 2. -/
def c7Body : List Ast :=
  [Ast.functionDef "f" [Ast.passStmt] [Ast.nameE "primitive"] 3 (some 4)]

/-- Source lines for the bare-`decomposition` example. -/
def c2Lines : List String :=
  ["class A(PlanExecute):", "    @decomposition", "    def analyze(self):", "        pass"]

/-- A class body with three tagged methods in declaration order:
`m1` primitive, `m2` decomposition, `m3` primitive. -/
def c6Body : List Ast :=
  [Ast.functionDef "m1" [Ast.passStmt] [Ast.nameE "primitive"] 3 (some 4),
   Ast.functionDef "m2" [Ast.passStmt]
     [Ast.callE (Ast.nameE "decomposition") [Ast.constantE (Const.str "combine results")] []]
     6 (some 7),
   Ast.functionDef "m3" [Ast.passStmt] [Ast.nameE "primitive"] 9 (some 10)]

/-- A module with a nested candidate class `B` declared inside `A`, before
the later top-level candidate class `C`.  Document order of the class
declarations is A, B, C. -/
def c8Tree : Ast :=
  Ast.module
    [Ast.classDef "A" [Ast.nameE "PlanExecute"]
       [Ast.classDef "B" [Ast.nameE "PlanExecute"] [Ast.passStmt]],
     Ast.classDef "C" [Ast.nameE "Planner"] [Ast.passStmt]]

/-! ### Claim theorems -/

/-- C3: a file whose contents fail to parse or cannot be read contributes an
empty agent sequence from the single-file scan, and a directory scan with
such a file still returns exactly the other files' agents, in order. -/
theorem scan_isolates_parse_failures (fs : ManifestFs) (filePath : PyPath) :
    scanFileForAgents fs filePath Option.none = [] ∧
    ∀ (pre post : List (PyPath × Option ParsedFile)) (badPath : PyPath),
      scanDirectoryForAgents fs (pre ++ (badPath, Option.none) :: post) =
        scanDirectoryForAgents fs pre ++ scanDirectoryForAgents fs post := by
  refine ⟨rfl, ?_⟩
  intro pre post badPath
  simp [scanDirectoryForAgents, List.flatMap_append, List.flatMap_cons,
    extractAgentInfoFromAst]

/-- C2: evaluation of the classifier at the failing input.  A method whose
only decorator is the bare name `decomposition` is dropped entirely (no
`DiscoveredMethod`), while the bare name `primitive` — and the call form
`decomposition(...)` — are classified.  The claim (and scanner docstring)
say a bare `decomposition` marker classifies the method as a Decomposition
capability; the decorator loop has no bare-name branch for it. -/
theorem bare_decomposition_marker_ignored :
    extractDecoratedMethods
        [Ast.functionDef "analyze" [Ast.passStmt] [Ast.nameE "decomposition"] 3 (some 4)]
        c2Lines = [] ∧
    (extractDecoratedMethods
        [Ast.functionDef "analyze" [Ast.passStmt] [Ast.nameE "primitive"] 3 (some 4)]
        c2Lines).map (fun m => (m.name, m.method_type)) = [("analyze", "primitive")] ∧
    (extractDecoratedMethods
        [Ast.functionDef "analyze" [Ast.passStmt]
            [Ast.callE (Ast.nameE "decomposition") [] []] 3 (some 4)]
        c2Lines).map (fun m => (m.name, m.method_type, m.intent, m.expanded_intent)) =
      [("analyze", "decomposition", "", "")] := by
  decide

/-- C6: the methods of an agent are listed in declaration order within the
class body — the extraction is a filter of the body, so relative order is
preserved and never grouped by kind; in particular the interleaved
primitive/decomposition/primitive body yields exactly that order. -/
theorem methods_declaration_order :
    (∀ (classBody : List Ast) (sourceLines : List String),
      (extractDecoratedMethods classBody sourceLines).map (fun m => m.name) =
        classBody.filterMap taggedName) ∧
    (extractDecoratedMethods c6Body []).map (fun m => (m.name, m.method_type)) =
      [("m1", "primitive"), ("m2", "decomposition"), ("m3", "primitive")] := by
  constructor
  · intro classBody sourceLines
    rw [extractDecoratedMethods, List.map_filterMap]
    simp only [classifyItem_name]
  · decide

/-- C9 counterexample: the extracted signature is not the join of the
r-stripped raw lines stopped at the first `):` line.  First input: the
final `strip()` removes the def line's indentation, so the first line is
not raw.  Second input: the loop also stops at a line containing `) ->`
even when the parameter list's closing line has no `):` at all. -/
theorem signature_extraction_counterexample :
    getMethodSignature 1 ["    def f(self):"] = "def f(self):" ∧
    claimSignature 1 ["    def f(self):"] = "    def f(self):" ∧
    getMethodSignature 1 ["    def f(self):"] ≠ claimSignature 1 ["    def f(self):"] ∧
    getMethodSignature 1 ["def g(a) -> X[", "  b]:"] = "def g(a) -> X[" ∧
    claimSignature 1 ["def g(a) -> X[", "  b]:"] = "def g(a) -> X[\n  b]:" ∧
    getMethodSignature 1 ["def g(a) -> X[", "  b]:"] ≠
      claimSignature 1 ["def g(a) -> X[", "  b]:"] := by
  decide

/-- C5: for a method whose tag is a `primitive` call, the read-only flag is
the truthiness of the tag's last `read_only` keyword constant (`false` when
there is none); a bare `primitive` tag yields `false`; and when the last
`read_only` keyword carries a literal boolean, the flag is exactly that
boolean. -/
theorem primitive_read_only_flag :
    (∀ (fname : String) (args kws body : List Ast) (ln : Nat) (el : Option Nat)
        (sourceLines : List String),
      (extractDecoratedMethods
          [Ast.functionDef fname body [Ast.callE (Ast.nameE "primitive") args kws] ln el]
          sourceLines).map (fun m => (m.method_type, m.read_only)) =
        [("primitive", lastReadOnlyLit kws)]) ∧
    (∀ (fname : String) (body : List Ast) (ln : Nat) (el : Option Nat)
        (sourceLines : List String),
      (extractDecoratedMethods
          [Ast.functionDef fname body [Ast.nameE "primitive"] ln el]
          sourceLines).map (fun m => (m.method_type, m.read_only)) =
        [("primitive", false)]) ∧
    (∀ (b : Bool) (kpre : List Ast),
      lastReadOnlyLit
        (kpre ++ [Ast.keywordA (some "read_only") (Ast.constantE (Const.bool b))]) = b) := by
  refine ⟨?_, ?_, ?_⟩
  · intro fname args kws body ln el sourceLines
    have hmt : (([Ast.callE (Ast.nameE "primitive") args kws]).foldl applyDecorator
        initDeco).methodType = some "primitive" := by
      simp [applyDecorator, initDeco]
    rw [extractDecoratedMethods, List.filterMap_cons,
      classifyItem_eq sourceLines fname body _ ln el "primitive" hmt]
    have hro : (applyDecorator initDeco (Ast.callE (Ast.nameE "primitive") args kws)).read_only
        = lastReadOnlyLit kws := by
      rw [applyDecorator_read_only]
      have hpk : primKws (Ast.callE (Ast.nameE "primitive") args kws) = kws := by
        simp [primKws]
      rw [hpk, readOnlyFold_eq_last]
      rfl
    simp only [List.foldl_cons, List.foldl_nil, List.filterMap_nil, List.map_cons, List.map_nil]
    rw [hro]
  · intro fname body ln el sourceLines
    have hmt : (([Ast.nameE "primitive"]).foldl applyDecorator initDeco).methodType =
        some "primitive" := by
      simp [applyDecorator, initDeco]
    rw [extractDecoratedMethods, List.filterMap_cons,
      classifyItem_eq sourceLines fname body _ ln el "primitive" hmt]
    simp [applyDecorator, initDeco]
  · intro b kpre
    simp [lastReadOnlyLit, List.reverse_append, List.findSome?, roLitOf, kwConst?, constTruthy]

/-- The decorator list of the C10 witness: a `primitive` call setting
`read_only=True`, followed by a `decomposition` call with intent. -/
def c10Ds : List Ast :=
  [Ast.callE (Ast.nameE "primitive") []
     [Ast.keywordA (some "read_only") (Ast.constantE (Const.bool true))],
   Ast.callE (Ast.nameE "decomposition") [Ast.constantE (Const.str "merge data")] []]

/-- C10: a method carrying more than one recognized capability marker still
yields exactly one DiscoveredMethod; its kind is the one assigned by the
last recognized marker, while the read-only flag is accumulated from the
`primitive` call markers' keywords alone and the intent pair from the
`decomposition` call markers alone, so argument-derived fields from every
recognized marker are retained. -/
theorem last_decorator_wins (fname : String) (ds body : List Ast) (ln : Nat)
    (el : Option Nat) (sourceLines : List String)
    (h : ds.filterMap recognizedKind ≠ []) :
    (extractDecoratedMethods [Ast.functionDef fname body ds ln el] sourceLines).length = 1 ∧
    (extractDecoratedMethods [Ast.functionDef fname body ds ln el] sourceLines).map
        (fun m => m.method_type) = [((ds.filterMap recognizedKind).getLast?).getD ""] ∧
    (extractDecoratedMethods [Ast.functionDef fname body ds ln el] sourceLines).map
        (fun m => m.read_only) = [readOnlyFold false (ds.flatMap primKws)] ∧
    (extractDecoratedMethods [Ast.functionDef fname body ds ln el] sourceLines).map
        (fun m => (m.intent, m.expanded_intent)) =
      [(ds.filter isDecompCall).foldl decompStep ("", "")] := by
  obtain ⟨k, hk⟩ := Option.isSome_iff_exists.mp (List.getLast?_isSome.mpr h)
  have hmt : (ds.foldl applyDecorator initDeco).methodType = some k := by
    rw [foldl_applyDecorator_methodType, hk]
    rfl
  rw [extractDecoratedMethods, List.filterMap_cons,
    classifyItem_eq sourceLines fname body ds ln el k hmt]
  have hro : (ds.foldl applyDecorator initDeco).read_only =
      readOnlyFold false (ds.flatMap primKws) :=
    foldl_applyDecorator_read_only ds initDeco
  have hints : ((ds.foldl applyDecorator initDeco).intent,
      (ds.foldl applyDecorator initDeco).expanded_intent) =
      ds.foldl decompStep ("", "") :=
    foldl_applyDecorator_intents ds initDeco
  rw [foldl_decompStep_filter] at hints
  simp only [List.filterMap_nil, List.map_cons, List.map_nil, List.length_cons,
    List.length_nil]
  refine ⟨trivial, by simp [hk], by rw [hro], by rw [hints]⟩

/-- C10 witness: the theorem applied to a concrete method carrying both a
`primitive(read_only=True)` marker and a `decomposition("merge data")`
marker. -/
theorem last_decorator_wins_witness :
    c10Ds.filterMap recognizedKind ≠ [] ∧
    ((extractDecoratedMethods [Ast.functionDef "combo" [Ast.passStmt] c10Ds 3 (some 5)]
        []).length = 1 ∧
     (extractDecoratedMethods [Ast.functionDef "combo" [Ast.passStmt] c10Ds 3 (some 5)]
        []).map (fun m => m.method_type) =
       [((c10Ds.filterMap recognizedKind).getLast?).getD ""] ∧
     (extractDecoratedMethods [Ast.functionDef "combo" [Ast.passStmt] c10Ds 3 (some 5)]
        []).map (fun m => m.read_only) = [readOnlyFold false (c10Ds.flatMap primKws)] ∧
     (extractDecoratedMethods [Ast.functionDef "combo" [Ast.passStmt] c10Ds 3 (some 5)]
        []).map (fun m => (m.intent, m.expanded_intent)) =
       [(c10Ds.filter isDecompCall).foldl decompStep ("", "")]) :=
  ⟨by decide, last_decorator_wins "combo" c10Ds [Ast.passStmt] 3 (some 5) [] (by decide)⟩

/-- C8 counterexample: the scan of a module whose first top-level candidate
class `A` nests a candidate class `B` before the later top-level candidate
`C` returns A, C, B — the breadth-first walk defers the nested class — while
the document order of the class declarations is A, B, C. -/
theorem scan_order_counterexample :
    (extractAgentInfoFromAst [] ⟨"d", "agents"⟩ (some ⟨[], c8Tree⟩)).map
        (fun a => a.class_name) = ["A", "C", "B"] ∧
    ((docNodes c8Tree).filterMap (processClassNode [] ⟨"d", "agents"⟩ [])).map
        (fun a => a.class_name) = ["A", "B", "C"] ∧
    (["A", "C", "B"] : List String) ≠ ["A", "B", "C"] := by
  decide

/-- C8 amended: the scan visits the whole tree — nested class declarations
included — and classifies every candidate class exactly once: the returned
sequence is a permutation of the document-order candidate list.  Its order
is the breadth-first traversal order, which can place a nested class after
a textually later top-level class (see the counterexample), so it is not
document order in general. -/
theorem scan_full_traversal_perm (fs : ManifestFs) (filePath : PyPath)
    (sourceLines : List String) (tree : Ast) :
    List.Perm (extractAgentInfoFromAst fs filePath (some ⟨sourceLines, tree⟩))
      ((docNodes tree).filterMap (processClassNode fs filePath sourceLines)) := by
  have hperm := walkFuel_perm (astSize tree) [tree]
    (by simp only [astSizeList]; omega)
  simp only [List.flatMap_cons, List.flatMap_nil, List.append_nil] at hperm
  exact hperm.filterMap (processClassNode fs filePath sourceLines)

/-- The `__init__` body of the C1 witness class: a `super().__init__` call
with inline description and version, and a bare `load_manifest(__file__)`. -/
def c1Init : Ast :=
  Ast.functionDef "__init__"
    [Ast.exprStmt
       (Ast.callE (Ast.attributeE (Ast.callE (Ast.nameE "super") [] []) "__init__")
          []
          [Ast.keywordA (some "description") (Ast.constantE (Const.str "A")),
           Ast.keywordA (some "version") (Ast.constantE (Const.str "1.0"))]),
     Ast.exprStmt (Ast.callE (Ast.nameE "load_manifest") [Ast.nameE "__file__"] [])]
    [] 2 (some 4)

/-- The manifest filesystem of the C1 witness: `agents/calc.manifest.json`
supplies a name and a description, but no version. -/
def c1Fs : ManifestFs :=
  [("agents/calc.manifest.json",
    some { name := some "CalcPro", description := some "B" })]

/-- C1: manifest merge precedence.  For a candidate class containing a
`load_manifest` call (so a manifest filename is resolved) whose loaded
manifest metadata is `meta`, each of name, description, version resolves to
the manifest value whenever that value is non-empty (overwriting the inline
`super().__init__` value or default); when the manifest value is empty or
missing, the field resolves exactly as it would with no manifest file
present at all (empty manifest filesystem). -/
theorem manifest_merge_precedence (fs : ManifestFs) (filePath : PyPath)
    (sourceLines : List String) (cname : String) (bases body : List Ast)
    (bc : String) (meta : ManifestMetadata)
    (hb : findBaseClass bases = some bc)
    (hm : extractManifestFilename (Ast.classDef cname bases body) ≠ some "")
    (hmeta : loadManifestMetadata fs filePath
      (extractManifestFilename (Ast.classDef cname bases body)) = meta) :
    ((meta.name ≠ "" →
        (processClassNode fs filePath sourceLines (Ast.classDef cname bases body)).map
          (fun a => a.name) = some meta.name) ∧
     (meta.name = "" →
        (processClassNode fs filePath sourceLines (Ast.classDef cname bases body)).map
            (fun a => a.name) =
          (processClassNode [] filePath sourceLines (Ast.classDef cname bases body)).map
            (fun a => a.name))) ∧
    ((meta.description ≠ "" →
        (processClassNode fs filePath sourceLines (Ast.classDef cname bases body)).map
          (fun a => a.description) = some meta.description) ∧
     (meta.description = "" →
        (processClassNode fs filePath sourceLines (Ast.classDef cname bases body)).map
            (fun a => a.description) =
          (processClassNode [] filePath sourceLines (Ast.classDef cname bases body)).map
            (fun a => a.description))) ∧
    ((meta.version ≠ "" →
        (processClassNode fs filePath sourceLines (Ast.classDef cname bases body)).map
          (fun a => a.version) = some meta.version) ∧
     (meta.version = "" →
        (processClassNode fs filePath sourceLines (Ast.classDef cname bases body)).map
            (fun a => a.version) =
          (processClassNode [] filePath sourceLines (Ast.classDef cname bases body)).map
            (fun a => a.version))) := by
  have hproj : processClassNode fs filePath sourceLines (Ast.classDef cname bases body) =
      some { name := (mergeManifest meta
                       (inlineMeta (Ast.classDef cname bases body) cname)).1
             class_name := cname
             file_path := filePath
             description := docstringFallback
               (mergeManifest meta (inlineMeta (Ast.classDef cname bases body) cname)).2.1
               body
             version := (mergeManifest meta
                          (inlineMeta (Ast.classDef cname bases body) cname)).2.2
             base_class := bc
             methods := extractDecoratedMethods body sourceLines } := by
    simp only [processClassNode, hb, if_neg hm, hmeta]
  have hmerge0 : ∀ t : String × String × String, mergeManifest {} t = t := by
    intro t
    simp [mergeManifest]
  have hproj0 : processClassNode [] filePath sourceLines (Ast.classDef cname bases body) =
      some { name := (inlineMeta (Ast.classDef cname bases body) cname).1
             class_name := cname
             file_path := filePath
             description := docstringFallback
               (inlineMeta (Ast.classDef cname bases body) cname).2.1 body
             version := (inlineMeta (Ast.classDef cname bases body) cname).2.2
             base_class := bc
             methods := extractDecoratedMethods body sourceLines } := by
    have hload : loadManifestMetadata [] filePath
        (extractManifestFilename (Ast.classDef cname bases body)) = {} := rfl
    simp only [processClassNode, hb, if_neg hm, hload, hmerge0]
  rw [hproj, hproj0]
  refine ⟨⟨?_, ?_⟩, ⟨?_, ?_⟩, ⟨?_, ?_⟩⟩
  · intro h; simp [mergeManifest, h]
  · intro h; simp [mergeManifest, h]
  · intro h; simp [mergeManifest, docstringFallback, h]
  · intro h; simp [mergeManifest, h]
  · intro h; simp [mergeManifest, h]
  · intro h; simp [mergeManifest, h]

/-- C1 witness: the theorem applied to the witness class `Calc`, whose
inline call sets description `A` and version `1.0`, with a manifest
supplying name `CalcPro` and description `B` but no version: the scan
resolves name `CalcPro`, description `B`, and keeps version `1.0`. -/
theorem manifest_merge_precedence_witness :
    (findBaseClass [Ast.nameE "PlanExecute"] = some "PlanExecute") ∧
    (extractManifestFilename (Ast.classDef "Calc" [Ast.nameE "PlanExecute"] [c1Init]) ≠
      some "") ∧
    (loadManifestMetadata c1Fs ⟨"agents", "calc"⟩
       (extractManifestFilename (Ast.classDef "Calc" [Ast.nameE "PlanExecute"] [c1Init])) =
      { name := "CalcPro", description := "B", version := "" }) ∧
    (processClassNode c1Fs ⟨"agents", "calc"⟩ []
        (Ast.classDef "Calc" [Ast.nameE "PlanExecute"] [c1Init])).map
      (fun a => a.name) = some "CalcPro" ∧
    (processClassNode c1Fs ⟨"agents", "calc"⟩ []
        (Ast.classDef "Calc" [Ast.nameE "PlanExecute"] [c1Init])).map
      (fun a => a.description) = some "B" ∧
    (processClassNode c1Fs ⟨"agents", "calc"⟩ []
        (Ast.classDef "Calc" [Ast.nameE "PlanExecute"] [c1Init])).map
      (fun a => a.version) =
      (processClassNode [] ⟨"agents", "calc"⟩ []
          (Ast.classDef "Calc" [Ast.nameE "PlanExecute"] [c1Init])).map
        (fun a => a.version) := by
  have happ := manifest_merge_precedence c1Fs ⟨"agents", "calc"⟩ [] "Calc"
    [Ast.nameE "PlanExecute"] [c1Init] "PlanExecute"
    { name := "CalcPro", description := "B", version := "" }
    (by decide) (by decide) (by decide)
  exact ⟨by decide, by decide, by decide,
    happ.1.1 (by decide), happ.2.1.1 (by decide), happ.2.2.2 (by decide)⟩

theorem loadManifestMetadata_degraded (fs : ManifestFs) (filePath : PyPath)
    (h : List.lookup (defaultManifestPath filePath) fs = Option.none ∨
         List.lookup (defaultManifestPath filePath) fs = some Option.none) :
    loadManifestMetadata fs filePath Option.none = {} := by
  simp only [defaultManifestPath] at h
  rcases h with h | h <;> simp [loadManifestMetadata, h]

/-- C4: default manifest resolution.  A `load_manifest` call with a single
argument and no keywords resolves to default naming; under default naming
the loaded metadata depends only on the filesystem entry at
`<dir>/<stem>.manifest.json`; when that file is missing or unparsable the
metadata is entirely empty; and the class scan then produces exactly what
it would produce with no manifest filesystem at all — no error is
surfaced (every function involved is total). -/
theorem default_manifest_resolution :
    (∀ (arg : Ast) (rest : List Ast),
       findLoadManifest (Ast.callE (Ast.nameE "load_manifest") [arg] [] :: rest) =
         Option.none) ∧
    (∀ (fs fsB : ManifestFs) (filePath : PyPath),
       List.lookup (defaultManifestPath filePath) fs =
         List.lookup (defaultManifestPath filePath) fsB →
       loadManifestMetadata fs filePath Option.none =
         loadManifestMetadata fsB filePath Option.none) ∧
    (∀ (fs : ManifestFs) (filePath : PyPath),
       (List.lookup (defaultManifestPath filePath) fs = Option.none ∨
        List.lookup (defaultManifestPath filePath) fs = some Option.none) →
       loadManifestMetadata fs filePath Option.none = {}) ∧
    (∀ (fs : ManifestFs) (filePath : PyPath) (sourceLines : List String)
        (cname : String) (bases body : List Ast),
       extractManifestFilename (Ast.classDef cname bases body) = Option.none →
       (List.lookup (defaultManifestPath filePath) fs = Option.none ∨
        List.lookup (defaultManifestPath filePath) fs = some Option.none) →
       processClassNode fs filePath sourceLines (Ast.classDef cname bases body) =
         processClassNode [] filePath sourceLines (Ast.classDef cname bases body)) := by
  refine ⟨?_, ?_, ?_, ?_⟩
  · intro arg rest
    rfl
  · intro fs fsB filePath h
    simp only [defaultManifestPath] at h
    simp [loadManifestMetadata, h]
  · intro fs filePath h
    exact loadManifestMetadata_degraded fs filePath h
  · intro fs filePath sourceLines cname bases body hmf h
    have hd : loadManifestMetadata fs filePath
        (extractManifestFilename (Ast.classDef cname bases body)) = {} := by
      rw [hmf]
      exact loadManifestMetadata_degraded fs filePath h
    have hd0 : loadManifestMetadata [] filePath
        (extractManifestFilename (Ast.classDef cname bases body)) = {} := rfl
    have hne : extractManifestFilename (Ast.classDef cname bases body) ≠ some "" := by
      rw [hmf]
      exact Option.noConfusion
    simp only [processClassNode, if_neg hne, hd, hd0]

/-- C4 witness: the theorem applied to a concrete class whose `__init__`
calls `load_manifest(__file__)` with a single argument, against a
filesystem whose only manifest file is unparsable. -/
theorem default_manifest_resolution_witness :
    (findLoadManifest
       (Ast.callE (Ast.nameE "load_manifest") [Ast.nameE "__file__"] [] ::
         [Ast.passStmt]) = Option.none) ∧
    (extractManifestFilename (Ast.classDef "Calc" [Ast.nameE "PlanExecute"] [c1Init]) =
      Option.none) ∧
    (List.lookup (defaultManifestPath ⟨"agents", "calc"⟩)
       ([("agents/calc.manifest.json", Option.none)] : ManifestFs) =
       some Option.none) ∧
    loadManifestMetadata [("agents/calc.manifest.json", Option.none)] ⟨"agents", "calc"⟩
      Option.none = {} ∧
    processClassNode [("agents/calc.manifest.json", Option.none)] ⟨"agents", "calc"⟩ []
        (Ast.classDef "Calc" [Ast.nameE "PlanExecute"] [c1Init]) =
      processClassNode [] ⟨"agents", "calc"⟩ []
        (Ast.classDef "Calc" [Ast.nameE "PlanExecute"] [c1Init]) := by
  refine ⟨default_manifest_resolution.1 (Ast.nameE "__file__") [Ast.passStmt],
    by decide, by decide,
    default_manifest_resolution.2.2.1 [("agents/calc.manifest.json", Option.none)]
      ⟨"agents", "calc"⟩ (Or.inr (by decide)),
    default_manifest_resolution.2.2.2 [("agents/calc.manifest.json", Option.none)]
      ⟨"agents", "calc"⟩ [] "Calc" [Ast.nameE "PlanExecute"] [c1Init]
      (by decide) (Or.inr (by decide))⟩

/-- Modelled from the spec: the capability tag carried by one decorator
line of re-parsed method text (§4.4's declarative marker mechanism). -/
def recognizedDecLine (l : String) : Option String :=
  if strStartsWith l "@primitive" then some "primitive"
  else if strStartsWith l "@decomposition" then some "decomposition"
  else Option.none

/-- Modelled from the spec: the Source Parser (§4.1) turns raw source text
into a syntax tree.  The scanner itself never re-parses its own output and
the language parser is not part of this repository, so re-parsing a single
method's text is modelled here, restricted to the shapes at issue: a first
line starting with whitespace fails to parse (indentation error at top
level, a syntax error); otherwise the leading `@`-lines form the decorator
list and a following `def <name>(...)` line yields a method node — the
result is the method's name together with its capability tag, if any. -/
def reParseMethodNode (s : String) : Option (String × Option String) :=
  match splitLines s with
  | [] => Option.none
  | first :: restLines =>
    if strStartsWith first " " || strStartsWith first "\t" then Option.none
    else
      let decLines := (first :: restLines).takeWhile (fun l => strStartsWith l "@")
      let remaining := (first :: restLines).dropWhile (fun l => strStartsWith l "@")
      match remaining with
      | [] => Option.none
      | defLine :: _ =>
        if strStartsWith defLine "def " then
          some (⟨(defLine.data.drop 4).takeWhile (fun c => c != '(')⟩,
                decLines.findSome? recognizedDecLine)
        else Option.none

/-- Modelled from the spec: `textwrap.dedent`-style removal of the common
leading-space prefix of the lines (whitespace-only-line subtleties elided;
the inputs used here have none). -/
def dedentModel (s : String) : String :=
  let ls := splitLines s
  let k := match ls.map (fun l => (l.data.takeWhile (fun c => c = ' ')).length) with
    | [] => 0
    | x :: xs => xs.foldl min x
  String.intercalate "\n" (ls.map (fun l => (⟨l.data.drop k⟩ : String)))

/-- C7 counterexample: the extracted `source` of the tagged method `f` of
`c7Lines` starts at its def line — the `@primitive` decorator line above it
is outside the recorded span — and keeps the class-body indentation, so
re-parsing the text yields no method node at all, not a method node with
the original name and tag. -/
theorem method_source_reparse_counterexample :
    getMethodSource 3 (some 4) c7Lines = "    def f(self):\n        pass" ∧
    reParseMethodNode (getMethodSource 3 (some 4) c7Lines) = Option.none ∧
    (extractDecoratedMethods c7Body c7Lines).map (fun m => (m.name, m.method_type)) =
      [("f", "primitive")] := by
  decide

/-- C7 amended: the extracted source span begins at the method's def line,
so the lines before it — the decorator lines in particular — cannot
influence it at all; consequently re-parsing can recover the method's name
(after dedenting, since the verbatim excerpt keeps its indentation and
fails to parse as-is) but not its capability tag, which is absent from the
re-parsed node. -/
theorem method_source_span_excludes_decorators :
    (∀ (pre preB rest : List String) (lineno : Nat) (el : Option Nat),
      pre.length = lineno - 1 → preB.length = lineno - 1 →
      getMethodSource lineno el (pre ++ rest) = getMethodSource lineno el (preB ++ rest)) ∧
    reParseMethodNode (dedentModel (getMethodSource 3 (some 4) c7Lines)) =
      some ("f", Option.none) := by
  constructor
  · intro pre preB rest lineno el hp hpB
    have h1 : (pre ++ rest).drop (lineno - 1) = rest := by
      rw [← hp]
      exact List.drop_left pre rest
    have h2 : (preB ++ rest).drop (lineno - 1) = rest := by
      rw [← hpB]
      exact List.drop_left preB rest
    simp only [getMethodSource, h1, h2]
  · decide

/-- C7 witness: the span-independence part applied at the concrete method:
replacing the `@primitive` decorator line above the def line by a
`@decomposition` line leaves the extracted source identical. -/
theorem method_source_span_excludes_decorators_witness :
    ((["class A(PlanExecute):", "    @primitive"] : List String).length = 3 - 1) ∧
    ((["class A(PlanExecute):", "    @decomposition"] : List String).length = 3 - 1) ∧
    getMethodSource 3 (some 4)
        (["class A(PlanExecute):", "    @primitive"] ++
          ["    def f(self):", "        pass"]) =
      getMethodSource 3 (some 4)
        (["class A(PlanExecute):", "    @decomposition"] ++
          ["    def f(self):", "        pass"]) :=
  ⟨by decide, by decide,
    method_source_span_excludes_decorators.1
      ["class A(PlanExecute):", "    @primitive"]
      ["class A(PlanExecute):", "    @decomposition"]
      ["    def f(self):", "        pass"] 3 (some 4) (by decide) (by decide)⟩

/-- C9 amended: within the 10-line window starting at the def line, the
signature is the lines up to and including the first one containing `):`
or `) ->`, each with trailing whitespace trimmed, joined with line breaks,
and the joined text stripped of surrounding whitespace; the accumulation
never exceeds 10 lines. -/
theorem signature_extraction_amended (lineno : Nat) (sourceLines : List String) :
    getMethodSignature lineno sourceLines = amendedSignatureSpec lineno sourceLines ∧
    (sigCollect sourceLines (lineno - 1) 10).length ≤ 10 := by
  constructor
  · rw [getMethodSignature, amendedSignatureSpec, sigCollect_eq]
  · exact sigCollect_length_le sourceLines 10 (lineno - 1)

end OsaiCli
